import Mathlib

/-
Verification development for the BEF executor (lib/bef_executor/bef_executor.cc).

The executor runs a static dataflow graph of kernels connected by registers.
Each register is a single-assignment atomic slot holding a pointer to a
reference-counted AsyncValue; each kernel has an atomic arguments_not_ready
counter.  The model below is a shallow embedding of that code:

* AsyncValues live in a heap of cells (refcount, availability, error flag,
  indirect/forwarding data); pointers are Nat ids.
* The compare-exchange races on a register are modelled by passing the value
  observed at the CAS linearisation point explicitly (none = the CAS succeeds,
  some v = a concurrent writer won with v).
* The firing loop, used-by dispatch, pseudo-kernel processing and Execute are
  translated statement by statement; side effects that matter to the claims
  (refcounts, worklist, counters, events such as kernel invocation, DropRef,
  AndThen arming) are recorded in an explicit state record.
* The arguments_not_ready counter is additionally modelled at the level of its
  atomic operation trace (fetch_sub and the bounded compare-exchange loop of
  SetKernelsWithErrorInputReady) to reason about arbitrary interleavings.
-/

namespace BEF

/-- One AsyncValue cell: reference count, availability, error flag, whether the
cell is an IndirectAsyncValue, and the forwarding target installed by
ForwardTo. -/
structure AVCell where
  refcount : Int
  available : Bool
  isError : Bool
  isIndirect : Bool
  forwarded : Option Nat
  deriving DecidableEq, Repr

instance : Inhabited AVCell := ⟨⟨0, false, false, false, none⟩⟩

/-- The heap of AsyncValue cells: a total map from ids to cells plus the next
fresh id handed out by the allocator. -/
structure Heap where
  cells : Nat → AVCell
  next : Nat

def getCell (h : Heap) (v : Nat) : AVCell := h.cells v

def updCell (h : Heap) (v : Nat) (f : AVCell → AVCell) : Heap :=
  { h with cells := fun i => if i = v then f (h.cells i) else h.cells i }

/-- AsyncValue::AddRef(n). -/
def addRef (h : Heap) (v : Nat) (n : Nat) : Heap :=
  updCell h v (fun c => { c with refcount := c.refcount + n })

/-- AsyncValue::DropRef(n). -/
def dropRef (h : Heap) (v : Nat) (n : Nat) : Heap :=
  updCell h v (fun c => { c with refcount := c.refcount - n })

def refcountOf (h : Heap) (v : Nat) : Int := (getCell h v).refcount

def isAvailableV (h : Heap) (v : Nat) : Bool := (getCell h v).available

def isErrorV (h : Heap) (v : Nat) : Bool := (getCell h v).isError

def isIndirectV (h : Heap) (v : Nat) : Bool := (getCell h v).isIndirect

/-- host->MakeIndirectAsyncValue().release(): a fresh IndirectAsyncValue,
unavailable, non-error, with refcount 1. -/
def allocIndirect (h : Heap) : Nat × Heap :=
  (h.next,
   { cells := fun i => if i = h.next then ⟨1, false, false, true, none⟩ else h.cells i,
     next := h.next + 1 })

/-- IndirectAsyncValue::ForwardTo(TakeRef(target)): the indirect cell points at
target, taking over the +1 reference passed in (so no refcount change on
target), and adopts the target's state. -/
def forwardTo (h : Heap) (iv target : Nat) : Heap :=
  let tcell := getCell h target
  updCell h iv (fun c =>
    { c with forwarded := some target,
             available := tcell.available,
             isError := tcell.isError })

def emptyHeap : Heap := ⟨fun _ => default, 0⟩

/-- BEFFileImpl::RegisterInfo: the atomic value pointer (initially null) and the
immutable static user count. -/
structure RegisterInfo where
  value : Option Nat
  user_count : Nat
  deriving DecidableEq, Repr

instance : Inhabited RegisterInfo := ⟨⟨none, 0⟩⟩

/-- GetRegisterValue: plain acquire load of the register's value. -/
def GetRegisterValue (reg : RegisterInfo) : Option Nat := reg.value

/-- GetOrCreateRegisterValue.  In the normal case the loaded pointer is
returned.  Otherwise an IndirectAsyncValue is allocated, user_count references
are added to it, and a CAS from null is attempted; casObserved is the register
content at the CAS linearisation point (none iff the CAS succeeds).  On CAS
failure user_count + 1 references are dropped and the winning value returned.
Returns (value, register after, heap after). -/
def GetOrCreateRegisterValue (reg : RegisterInfo) (h : Heap) (casObserved : Option Nat) :
    Nat × RegisterInfo × Heap :=
  match reg.value with
  | some value => (value, reg, h)
  | none =>
    let alloc := allocIndirect h
    let indirect_value := alloc.1
    let h2 := addRef alloc.2 indirect_value reg.user_count
    match casObserved with
    | some existing =>
        (existing, { reg with value := some existing },
         dropRef h2 indirect_value (reg.user_count + 1))
    | none =>
        (indirect_value, { reg with value := some indirect_value }, h2)

/-- SetRegisterValue.  new_value arrives carrying a +1 reference; user_count - 1
references are added speculatively, then a CAS from null is attempted
(casObserved as above).  On failure the existing entry (an IndirectAsyncValue)
is forwarded to new_value, the speculative AddRef is reverted, and
register_already_set signals the caller to DropRef the returned pointer later.
Returns (returned value, register_already_set, register content after, heap). -/
def SetRegisterValue (user_count : Nat) (h : Heap) (new_value : Nat)
    (casObserved : Option Nat) : Nat × Bool × Option Nat × Heap :=
  let h1 := addRef h new_value (user_count - 1)
  match casObserved with
  | none => (new_value, false, some new_value, h1)
  | some existing =>
      let h2 := dropRef h1 new_value (user_count - 1)
      let h3 := forwardTo h2 existing new_value
      (existing, true, some existing, h3)

/-- The value the SetKernelsWithErrorInputReady loop drives a counter to: 1 if
the current value exceeds 1, otherwise the counter is left unchanged. -/
def forceToOne (c : Int) : Int := if c > 1 then 1 else c

/-- One compare_exchange_weak attempt from the SetKernelsWithErrorInputReady
loop: the loop body runs only while the last observed value (expected) exceeds
1, and the exchange writes 1 exactly when the current value still equals
expected.  Returns the counter value after the attempt. -/
def casAttempt (current expected : Int) : Int :=
  if expected > 1 ∧ current = expected then 1 else current

/-- SetKernelsWithErrorInputReady: force the arguments_not_ready counter of
every listed kernel down to 1 when it exceeds 1 (sequential effect of the
compare-exchange loop). -/
def SetKernelsWithErrorInputReady : List Int → List Nat → List Int
  | counters, [] => counters
  | counters, kernel_id :: rest =>
      SetKernelsWithErrorInputReady
        (counters.set kernel_id (forceToOne (counters.getD kernel_id 0))) rest

/-- Observable actions of the executor recorded while the model runs. -/
inductive Event where
  | invokeKernel (id : Nat)
  | fetchSubEv (id : Nat) (prior : Int)
  | forceReadyEv (ids : List Nat)
  | appendEv (ids : List Nat)
  | andThenArmEv (ids : List Nat)
  | lifetimeExtEv (v : Nat)
  | dropRefEv (v : Nat)
  | setRegEv (ridx : Nat) (u : Nat)
  | addRefExecEv
  deriving DecidableEq, Repr

/-- Mutable state threaded through the executor: the AsyncValue heap, the
register file, the arguments_not_ready counters, the worklist (back = last
element, matching SmallVector pop_back_val), the executor's and the location
handler's reference counts, and the event log. -/
structure ExecState where
  heap : Heap
  regs : List RegisterInfo
  counters : List Int
  worklist : List Nat
  execRefs : Int
  locRefs : Int
  events : List Event

def emit (s : ExecState) (e : Event) : ExecState :=
  { s with events := s.events ++ [e] }

/-- A decoded kernel record (BEFKernel): header counts plus the flat entries
array (arguments, attributes, functions, results, then all used_by lists) and
the per-result used_by counts from the record header. -/
structure BEFKernel where
  kernel_code : Nat
  special_metadata : Nat
  kernel_location : Nat
  num_arguments : Nat
  num_attributes : Nat
  num_functions : Nat
  num_results : Nat
  used_by_counts : List Nat
  entries : List Nat
  deriving DecidableEq, Repr

instance : Inhabited BEFKernel := ⟨⟨0, 0, 0, 0, 0, 0, 0, [], []⟩⟩

/-- BEFKernel::GetKernelEntries(offset, n). -/
def BEFKernel.GetKernelEntries (k : BEFKernel) (offset n : Nat) : List Nat :=
  (k.entries.drop offset).take n

/-- BEFKernel::num_used_bys(result_number). -/
def BEFKernel.num_used_bys (k : BEFKernel) (result_number : Nat) : Nat :=
  k.used_by_counts.getD result_number 0

/-- MaybeAddRefForResult: if the result is unavailable, attach a no-op AndThen
capturing a strong reference to the location handler. -/
def MaybeAddRefForResult (s : ExecState) (result : Nat) : ExecState :=
  if isAvailableV s.heap result then s
  else emit { s with locRefs := s.locRefs + 1 } (Event.lifetimeExtEv result)

/-- ProcessUsedBys: dispatch the consumers of one just-produced result.  With no
users, only MaybeAddRefForResult runs.  Otherwise the used_by list is read from
the entries, error acceleration is applied first when the result is in the
Error state, then the ids are appended to the worklist if the result is
available, or an AndThen is armed (after AddRef on the executor) if it is still
pending.  Returns (entry offset after, state after). -/
def ProcessUsedBys (kernel : BEFKernel) (result_number : Nat) (result : Nat)
    (entry_offset : Nat) (s : ExecState) : Nat × ExecState :=
  let num_used_bys := kernel.num_used_bys result_number
  if num_used_bys = 0 then
    (entry_offset, MaybeAddRefForResult s result)
  else
    let used_bys := kernel.GetKernelEntries entry_offset num_used_bys
    let entry_offset2 := entry_offset + num_used_bys
    let st := getCell s.heap result
    let s1 :=
      if st.isError then
        emit { s with counters := SetKernelsWithErrorInputReady s.counters used_bys }
          (Event.forceReadyEv used_bys)
      else s
    if st.available then
      (entry_offset2,
       emit { s1 with worklist := s1.worklist ++ used_bys } (Event.appendEv used_bys))
    else
      -- Keep the executor alive until the AndThen fires; the single-user and
      -- batch closures of the source have the same observable effect.
      let s2 := emit { s1 with execRefs := s1.execRefs + 1 } Event.addRefExecEv
      (entry_offset2, emit s2 (Event.andThenArmEv used_bys))

/-- The body of the result-publication loop for one result register (the tail
of DecrementArgumentsNotReadyCounts).  With user_count zero the value is not
installed: MaybeAddRefForResult runs, the producer's +1 is dropped, and the
loop continues.  Otherwise SetRegisterValue installs the value, ProcessUsedBys
dispatches the users of the effective register value, and when the register
had already been set the extra reference on the returned IndirectAsyncValue is
dropped after the dispatch. -/
def publishOneResult (kernel : BEFKernel) (result_number : Nat) (reg_index : Nat)
    (result : Nat) (casObs : Option Nat) (entry_offset : Nat) (s : ExecState) :
    Nat × ExecState :=
  let reg := s.regs.getD reg_index default
  if reg.user_count = 0 then
    let s1 := MaybeAddRefForResult s result
    let s2 := emit { s1 with heap := dropRef s1.heap result 1 } (Event.dropRefEv result)
    (entry_offset, s2)
  else
    let sv := SetRegisterValue reg.user_count s.heap result casObs
    let register_value := sv.1
    let already_set := sv.2.1
    let s1 := emit { s with heap := sv.2.2.2,
                            regs := s.regs.set reg_index { reg with value := sv.2.2.1 } }
        (Event.setRegEv reg_index reg.user_count)
    let step := ProcessUsedBys kernel result_number register_value entry_offset s1
    let s2 :=
      if already_set then
        emit { step.2 with heap := dropRef step.2.heap register_value 1 }
          (Event.dropRefEv register_value)
      else step.2
    (step.1, s2)

/-- Fixed collaborators of one executor: the decoded kernel records (indexed by
kernel id, abstracting the offset lookup into the kernel stream), the host's
cancel sentinel, the oracle giving the result values a kernel invocation
stores in its result slots, and the CAS-observation oracles resolving the
register races per (kernel id, position). -/
structure ExecutorCtx where
  kernelRecords : List BEFKernel
  cancel : Option Nat
  kernelResults : Nat → List Nat
  argCasObs : Nat → Nat → Option Nat
  resCasObs : Nat → Nat → Option Nat

/-- Argument-binding loop: for each (position, argument register index), obtain
the value with GetOrCreateRegisterValue, append it to the frame, and record it
as any_error_argument when it is in the Error state. -/
def bindArgsLoop (casObs : Nat → Option Nat) :
    List (Nat × Nat) → List Nat → Option Nat → ExecState →
    List Nat × Option Nat × ExecState
  | [], frame, any_error, s => (frame, any_error, s)
  | (i, reg_idx) :: rest, frame, any_error, s =>
    let reg := s.regs.getD reg_idx default
    let g := GetOrCreateRegisterValue reg s.heap (casObs i)
    let s1 := { s with heap := g.2.2, regs := s.regs.set reg_idx g.2.1 }
    let any2 := if isErrorV s1.heap g.1 then some g.1 else any_error
    bindArgsLoop casObs rest (frame ++ [g.1]) any2 s1

/-- Bind all argument registers of a kernel; any_error_argument starts as the
host's cancel sentinel. -/
def bindArgs (args : List Nat) (casObs : Nat → Option Nat) (cancel : Option Nat)
    (s : ExecState) : List Nat × Option Nat × ExecState :=
  bindArgsLoop casObs args.enum [] cancel s

/-- The short-circuit loop: kernel_frame.SetResultAt(i, FormRef(any_error)) for
every result slot adds one reference per slot. -/
def formRefLoop (e : Nat) : Nat → Heap → Heap
  | 0, h => h
  | n + 1, h => formRefLoop e n (addRef h e 1)

/-- Argument-release loop: DropRef every frame argument once. -/
def dropArgsLoop : List Nat → ExecState → ExecState
  | [], s => s
  | arg :: rest, s =>
      dropArgsLoop rest (emit { s with heap := dropRef s.heap arg 1 } (Event.dropRefEv arg))

/-- Fire-or-propagate step: invoke the kernel implementation when there is no
error argument or the kernel is non-strict; otherwise install a new reference
to any_error_argument in every result slot.  Afterwards every bound argument
is dropped once.  Returns (invoked, result slot values, state). -/
def fireOrPropagate (kernel_id : Nat) (is_nonstrict : Bool) (any_error : Option Nat)
    (num_results : Nat) (kernelResults : List Nat) (frame : List Nat) (s : ExecState) :
    Bool × List Nat × ExecState :=
  let fired :=
    match any_error with
    | none => (true, kernelResults, emit s (Event.invokeKernel kernel_id))
    | some e =>
      if is_nonstrict then (true, kernelResults, emit s (Event.invokeKernel kernel_id))
      else
        (false, List.replicate num_results e,
         { s with heap := formRefLoop e num_results s.heap })
  (fired.1, fired.2.1, dropArgsLoop frame fired.2.2)

/-- Result-publication loop over all result numbers of a fired kernel. -/
def publishResultsLoop (ctx : ExecutorCtx) (kernel : BEFKernel) (kernel_id : Nat)
    (results : List Nat) (slots : List Nat) :
    List Nat → Nat → ExecState → ExecState
  | [], _, s => s
  | result_number :: rest, entry_offset, s =>
    let reg_index := results.getD result_number 0
    let result := slots.getD result_number 0
    let step := publishOneResult kernel result_number reg_index result
        (ctx.resCasObs kernel_id result_number) entry_offset s
    publishResultsLoop ctx kernel kernel_id results slots rest step.1 step.2

/-- The body of the firing loop run for a kernel whose fetch_sub observed the
prior value 1: decode the record, bind arguments (recording error arguments on
top of the cancel sentinel), fire or short-circuit, release arguments, and
publish every result. -/
def firedKernelBody (ctx : ExecutorCtx) (kernel_id : Nat) (s : ExecState) : ExecState :=
  let kernel := ctx.kernelRecords.getD kernel_id default
  let args := kernel.GetKernelEntries 0 kernel.num_arguments
  let bound := bindArgs args (ctx.argCasObs kernel_id) ctx.cancel s
  let is_nonstrict : Bool := decide (kernel.special_metadata % 2 = 1)
  let fired := fireOrPropagate kernel_id is_nonstrict bound.2.1 kernel.num_results
      (ctx.kernelResults kernel_id) bound.1 bound.2.2
  let entry_offset := kernel.num_arguments + kernel.num_attributes + kernel.num_functions
  let results := kernel.GetKernelEntries entry_offset kernel.num_results
  publishResultsLoop ctx kernel kernel_id results fired.2.1
      (List.range results.length) (entry_offset + results.length) fired.2.2

/-- One iteration of the firing loop: pop the back of the worklist, fetch_sub
the kernel's arguments_not_ready counter, and run the fired body exactly when
the prior value was 1. -/
def popStep (ctx : ExecutorCtx) (s : ExecState) : ExecState :=
  match s.worklist.getLast? with
  | none => s
  | some kernel_id =>
    let prior := s.counters.getD kernel_id 0
    let s1 := emit { s with worklist := s.worklist.dropLast,
                            counters := s.counters.set kernel_id (prior - 1) }
        (Event.fetchSubEv kernel_id prior)
    if prior = 1 then firedKernelBody ctx kernel_id s1 else s1

/-- DecrementArgumentsNotReadyCounts: drain the worklist back to front.  The
fuel bounds the number of loop iterations (termination of the scheduler is not
in scope). -/
def DecrementArgumentsNotReadyCounts (ctx : ExecutorCtx) : Nat → ExecState → ExecState
  | 0, s => s
  | fuel + 1, s =>
      if s.worklist = [] then s
      else DecrementArgumentsNotReadyCounts ctx fuel (popStep ctx s)

/-- Worklist seeding of the BEFExecutor constructor: push kernel ids in reverse
so that id 0 ends up at the back of the LIFO worklist. -/
def seedWorklist (e : Nat) : List Nat := (List.range e).map (fun i => e - i - 1)

/-- Loop of ProcessArgumentsPseudoKernel over the pseudo-kernel's result
numbers: results with user_count zero are skipped; the others run used-by
dispatch on the caller-installed register value. -/
def pseudoKernelLoop (kernel : BEFKernel) (results : List Nat) :
    List Nat → Nat → ExecState → ExecState
  | [], _, s => s
  | result_number :: rest, used_by_offset, s =>
    let reg := s.regs.getD (results.getD result_number 0) default
    if reg.user_count = 0 then pseudoKernelLoop kernel results rest used_by_offset s
    else
      match GetRegisterValue reg with
      | none => pseudoKernelLoop kernel results rest used_by_offset s
      | some result =>
        let step := ProcessUsedBys kernel result_number result used_by_offset s
        pseudoKernelLoop kernel results rest step.1 step.2

/-- ProcessArgumentsPseudoKernel: pop the pseudo-kernel (id 0, asserted to be
the back of the worklist) without touching its counter, then dispatch the
users of every argument register that has users. -/
def ProcessArgumentsPseudoKernel (ctx : ExecutorCtx) (s : ExecState) : ExecState :=
  let s0 := { s with worklist := s.worklist.dropLast }
  let kernel := ctx.kernelRecords.getD 0 default
  let results := kernel.GetKernelEntries 0 kernel.num_results
  pseudoKernelLoop kernel results (List.range results.length) results.length s0

/-- BEFExecutor constructor tail: seed the worklist with all kernel ids in
reverse, run the argument pseudo-kernel when present, then drive the firing
loop. -/
def runExecutor (ctx : ExecutorCtx) (fuel num_kernels : Nat) (has_pseudo : Bool)
    (s : ExecState) : ExecState :=
  let s1 := { s with worklist := seedWorklist num_kernels }
  let s2 := if has_pseudo then ProcessArgumentsPseudoKernel ctx s1 else s1
  DecrementArgumentsNotReadyCounts ctx fuel s2

/-- InitializeArgumentRegisters: store each caller argument into its leading
register slot after adding user_count references to it. -/
def initArgRegsLoop (arguments : List Nat) :
    List Nat → List RegisterInfo → Heap → List RegisterInfo × Heap
  | [], regs, h => (regs, h)
  | i :: rest, regs, h =>
    if i < arguments.length then
      let value := arguments.getD i 0
      let reg := regs.getD i default
      let h2 := addRef h value reg.user_count
      initArgRegsLoop arguments rest (regs.set i { reg with value := some value }) h2
    else initArgRegsLoop arguments rest regs h

/-- Result-population loop of Execute: for each (result position, result
register), results[i] := TakeRef(GetOrCreateRegisterValue(result_reg)). -/
def populateResults (resCasObs : Nat → Option Nat) :
    List (Nat × Nat) → List (Option Nat) → ExecState →
    List (Option Nat) × ExecState
  | [], out, s => (out, s)
  | (i, result_reg) :: rest, out, s =>
    let reg := s.regs.getD result_reg default
    let g := GetOrCreateRegisterValue reg s.heap (resCasObs i)
    let s1 := { s with heap := g.2.2, regs := s.regs.set result_reg g.2.1 }
    populateResults resCasObs rest (out.set i (some g.1)) s1

/-- What BEFFileImpl::ReadFunction (an external collaborator) hands back: the
raw kernel stream (whose emptiness gates the early return), the initialised
register infos, the arguments_not_ready counters, and the result register
indices. -/
structure ReadFunctionOutput where
  kernels : List Nat
  register_infos : List RegisterInfo
  kernel_counters : List Int
  result_regs : List Nat

/-- BEFExecutor::Execute: on an empty kernel stream return early with the
caller's result slots untouched; otherwise initialise the argument registers,
construct and run the executor (with the pseudo-kernel when arguments are
present), then populate every caller result slot. -/
def Execute (ctx : ExecutorCtx) (fnOut : ReadFunctionOutput) (arguments : List Nat)
    (results : List (Option Nat)) (popCasObs : Nat → Option Nat) (h : Heap)
    (fuel : Nat) : List (Option Nat) × ExecState :=
  if fnOut.kernels = [] then
    (results,
     { heap := h, regs := fnOut.register_infos, counters := fnOut.kernel_counters,
       worklist := [], execRefs := 1, locRefs := 1, events := [] })
  else
    let init := initArgRegsLoop arguments (List.range fnOut.register_infos.length)
        fnOut.register_infos h
    let s0 : ExecState :=
      { heap := init.2, regs := init.1, counters := fnOut.kernel_counters,
        worklist := [], execRefs := 1, locRefs := 1, events := [] }
    let s1 := runExecutor ctx fuel fnOut.kernel_counters.length (!arguments.isEmpty) s0
    populateResults popCasObs fnOut.result_regs.enum results s1

/-- One atomic operation on an arguments_not_ready counter: a fetch_sub(1) from
the firing loop, or one compare-exchange attempt of the error-acceleration
loop (which runs only while the observed expected value exceeds 1 and writes
1). -/
inductive CounterOp where
  | fetchSub
  | forceCAS (expected : Int)
  deriving DecidableEq, Repr

def applyOp (v : Int) : CounterOp → Int
  | CounterOp.fetchSub => v - 1
  | CounterOp.forceCAS e => casAttempt v e

def numFetchSub : List CounterOp → Nat
  | [] => 0
  | CounterOp.fetchSub :: rest => numFetchSub rest + 1
  | CounterOp.forceCAS _ :: rest => numFetchSub rest

/-- Number of operations in the trace that are a fetch_sub observing the prior
value 1, i.e. the firing decisions for this kernel. -/
def countFires (v : Int) : List CounterOp → Nat
  | [] => 0
  | op :: rest =>
      (if op = CounterOp.fetchSub ∧ v = 1 then 1 else 0) + countFires (applyOp v op) rest

/-- Number of operations after which the counter has just become 0 (transitions
into zero from a nonzero value). -/
def countZeroTransitions (v : Int) : List CounterOp → Nat
  | [] => 0
  | op :: rest =>
      (if v ≠ 0 ∧ applyOp v op = 0 then 1 else 0) + countZeroTransitions (applyOp v op) rest

/-- Events that used-by dispatch (including MaybeAddRefForResult) may emit. -/
def isDispatchEv : Event → Prop
  | Event.forceReadyEv _ => True
  | Event.appendEv _ => True
  | Event.andThenArmEv _ => True
  | Event.lifetimeExtEv _ => True
  | Event.addRefExecEv => True
  | _ => False

def kernelC7 : BEFKernel := ⟨0, 0, 0, 0, 0, 0, 1, [1], [7]⟩

def errHeap : Heap := ⟨fun _ => ⟨1, true, true, false, none⟩, 1⟩

def errState : ExecState := ⟨errHeap, [], [0, 0, 0, 0, 0, 0, 0, 5], [], 1, 1, []⟩

def pendHeap : Heap := ⟨fun _ => ⟨2, false, false, false, none⟩, 1⟩

def pendState : ExecState := ⟨pendHeap, [⟨none, 0⟩], [], [3], 1, 1, []⟩

def ctx0 : ExecutorCtx := ⟨[kernelC7], none, fun _ => [], fun _ _ => none, fun _ _ => none⟩

def fnOutEmpty : ReadFunctionOutput := ⟨[], [], [], [0]⟩

def fnOutW : ReadFunctionOutput := ⟨[1], [⟨none, 1⟩], [2], [0]⟩

theorem getD_set_self {α} (l : List α) (i : Nat) (a d : α) (hlt : i < l.length) :
    (l.set i a).getD i d = a := by
  induction l generalizing i with
  | nil => simp at hlt
  | cons x xs ih =>
    cases i with
    | zero => simp [List.getD]
    | succ n => simpa [List.getD] using ih n (by simpa using hlt)

theorem getD_set_of_ne {α} (l : List α) {i j : Nat} (a d : α) (hne : i ≠ j) :
    (l.set i a).getD j d = l.getD j d := by
  induction l generalizing i j with
  | nil => simp
  | cons x xs ih =>
    cases i with
    | zero =>
      cases j with
      | zero => exact absurd rfl hne
      | succ m => simp [List.getD]
    | succ n =>
      cases j with
      | zero => simp [List.getD]
      | succ m =>
        have hnm : n ≠ m := fun hc => hne (by simp [hc])
        simpa [List.getD] using ih hnm

/-- Claim C1: for every register with user count u, GetOrCreateRegisterValue
returns the register's existing value when it is already non-null; otherwise
it allocates an IndirectAsyncValue (refcount 1), adds u references to it, and
attempts a CAS from null: on CAS success it returns the placeholder with
refcount u + 1, and on CAS failure it drops u + 1 references on the
placeholder (returning its refcount to 0) and returns the value that won the
race. -/
theorem claim_C1 (reg : RegisterInfo) (h : Heap) (casObserved : Option Nat) :
    (∀ v, reg.value = some v →
      GetOrCreateRegisterValue reg h casObserved = (v, reg, h)) ∧
    (reg.value = none → casObserved = none →
      (GetOrCreateRegisterValue reg h casObserved).1 = h.next ∧
      (GetOrCreateRegisterValue reg h casObserved).2.1.value = some h.next ∧
      isIndirectV (GetOrCreateRegisterValue reg h casObserved).2.2 h.next = true ∧
      refcountOf (GetOrCreateRegisterValue reg h casObserved).2.2 h.next
        = (reg.user_count : Int) + 1) ∧
    (∀ w, reg.value = none → casObserved = some w →
      (GetOrCreateRegisterValue reg h casObserved).1 = w ∧
      (GetOrCreateRegisterValue reg h casObserved).2.1.value = some w ∧
      refcountOf (GetOrCreateRegisterValue reg h casObserved).2.2 h.next = 0) := by
  refine ⟨?_, ?_, ?_⟩
  · intro v hv
    simp [GetOrCreateRegisterValue, hv]
  · intro h1 h2
    subst h2
    refine ⟨?_, ?_, ?_, ?_⟩ <;>
      simp [GetOrCreateRegisterValue, h1, allocIndirect, addRef, updCell, getCell,
        refcountOf, isIndirectV] <;> omega
  · intro w h1 h2
    subst h2
    refine ⟨?_, ?_, ?_⟩ <;>
      simp [GetOrCreateRegisterValue, h1, allocIndirect, addRef, dropRef, updCell,
        getCell, refcountOf] <;> omega

theorem claim_C1_witness :
    (RegisterInfo.mk none 2).value = none ∧
    refcountOf
        (GetOrCreateRegisterValue (RegisterInfo.mk none 2) emptyHeap none).2.2
        emptyHeap.next
      = ((RegisterInfo.mk none 2).user_count : Int) + 1 :=
  ⟨rfl, ((claim_C1 (RegisterInfo.mk none 2) emptyHeap none).2.1 rfl rfl).2.2.2⟩

/-- Claim C2: for a register with user count u ≥ 1 and a just-produced value v
carrying a +1 reference, SetRegisterValue adds u - 1 references to v and
attempts a CAS from null: on success the register holds v with its refcount
raised by u - 1 (so u total when v carried exactly the +1) and
register_already_set is false; on failure the existing entry (an
IndirectAsyncValue) is returned, the speculative references are reverted so
v's refcount is unchanged, the indirect value is forwarded to v donating the
+1, register_already_set is true, and (third conjunct, the call site at the
end of the firing loop's result-publication step) the caller performs one
extra DropRef on the returned indirect value after the used-by dispatch
finishes. -/
theorem claim_C2 (u : Nat) (h : Heap) (v : Nat) (hu : 1 ≤ u) :
    (SetRegisterValue u h v none = (v, false, some v, addRef h v (u - 1)) ∧
      refcountOf (SetRegisterValue u h v none).2.2.2 v
        = refcountOf h v + (u : Int) - 1) ∧
    (∀ ex, (SetRegisterValue u h v (some ex)).1 = ex ∧
      (SetRegisterValue u h v (some ex)).2.1 = true ∧
      (SetRegisterValue u h v (some ex)).2.2.1 = some ex ∧
      refcountOf (SetRegisterValue u h v (some ex)).2.2.2 v = refcountOf h v ∧
      (getCell (SetRegisterValue u h v (some ex)).2.2.2 ex).forwarded = some v) ∧
    (∀ ex kernel result_number reg_index entry_offset s,
      (s.regs.getD reg_index default).user_count = u →
      publishOneResult kernel result_number reg_index v (some ex) entry_offset s =
        (let reg := s.regs.getD reg_index default
         let sv := SetRegisterValue u s.heap v (some ex)
         let s1 := emit { s with heap := sv.2.2.2,
                                 regs := s.regs.set reg_index
                                   { reg with value := some ex } }
             (Event.setRegEv reg_index u)
         let step := ProcessUsedBys kernel result_number ex entry_offset s1
         (step.1,
          emit { step.2 with heap := dropRef step.2.heap ex 1 }
            (Event.dropRefEv ex)))) := by
  refine ⟨⟨rfl, ?_⟩, ?_, ?_⟩
  · simp [SetRegisterValue, addRef, updCell, getCell, refcountOf]
    omega
  · intro ex
    refine ⟨rfl, rfl, rfl, ?_, ?_⟩
    · simp only [SetRegisterValue, forwardTo, addRef, dropRef, updCell, getCell,
        refcountOf]
      by_cases hev : v = ex <;> simp [hev] <;> omega
    · simp [SetRegisterValue, forwardTo, addRef, dropRef, updCell, getCell]
  · intro ex kernel result_number reg_index entry_offset s hreg
    have hz : ¬ u = 0 := by omega
    simp only [publishOneResult, hreg, if_neg hz]
    rfl

theorem applyOp_nonpos {v : Int} (hv : v ≤ 0) (op : CounterOp) : applyOp v op ≤ 0 := by
  cases op with
  | fetchSub => simp [applyOp]; omega
  | forceCAS e =>
    simp only [applyOp, casAttempt]
    split
    · omega
    · exact hv

theorem countFires_nonpos {v : Int} (hv : v ≤ 0) (ops : List CounterOp) :
    countFires v ops = 0 := by
  induction ops generalizing v with
  | nil => rfl
  | cons op rest ih =>
    have h1 : ¬ (op = CounterOp.fetchSub ∧ v = 1) := by rintro ⟨_, h⟩; omega
    simp [countFires, h1, ih (applyOp_nonpos hv op)]

theorem countZeroTransitions_nonpos {v : Int} (hv : v ≤ 0) (ops : List CounterOp) :
    countZeroTransitions v ops = 0 := by
  induction ops generalizing v with
  | nil => rfl
  | cons op rest ih =>
    have h1 : ¬ (v ≠ 0 ∧ applyOp v op = 0) := by
      rintro ⟨hne, h0⟩
      cases op with
      | fetchSub => simp only [applyOp] at h0; omega
      | forceCAS e =>
        simp only [applyOp, casAttempt] at h0
        split at h0
        · omega
        · exact hne h0
    simp [countZeroTransitions, h1, ih (applyOp_nonpos hv op)]

theorem countFires_le_one (v : Int) (ops : List CounterOp) : countFires v ops ≤ 1 := by
  induction ops generalizing v with
  | nil => simp [countFires]
  | cons op rest ih =>
    by_cases hf : op = CounterOp.fetchSub ∧ v = 1
    · obtain ⟨hop, hv⟩ := hf
      subst hop
      subst hv
      have h0 : applyOp 1 CounterOp.fetchSub = 0 := by decide
      have hz : countFires (0 : Int) rest = 0 := countFires_nonpos (le_refl 0) rest
      simp [countFires, h0, hz]
    · simp only [countFires, if_neg hf, Nat.zero_add]
      exact ih (applyOp v op)

theorem countFires_eq_one : ∀ (ops : List CounterOp) (v : Int), 1 ≤ v →
    v ≤ (numFetchSub ops : Int) → countFires v ops = 1 := by
  intro ops
  induction ops with
  | nil =>
    intro v h1 h2
    simp only [numFetchSub, Nat.cast_zero] at h2
    omega
  | cons op rest ih =>
    intro v h1 h2
    cases op with
    | fetchSub =>
      by_cases hv1 : v = 1
      · subst hv1
        have h0 : applyOp 1 CounterOp.fetchSub = 0 := by decide
        have hz : countFires (0 : Int) rest = 0 := countFires_nonpos (le_refl 0) rest
        simp [countFires, h0, hz]
      · have hr : countFires (applyOp v CounterOp.fetchSub) rest = 1 := by
          apply ih
          · simp only [applyOp]; omega
          · simp only [applyOp]
            simp only [numFetchSub, Nat.cast_add, Nat.cast_one] at h2
            omega
        simp [countFires, hv1, hr]
    | forceCAS e =>
      have hns : numFetchSub (CounterOp.forceCAS e :: rest) = numFetchSub rest := rfl
      rw [hns] at h2
      have hr : countFires (applyOp v (CounterOp.forceCAS e)) rest = 1 := by
        apply ih
        · simp only [applyOp, casAttempt]
          split
          · omega
          · exact h1
        · simp only [applyOp, casAttempt]
          split
          · omega
          · exact h2
      simp [countFires, hr]

theorem countFires_eq_countZeroTransitions (ops : List CounterOp) :
    ∀ v : Int, countFires v ops = countZeroTransitions v ops := by
  induction ops with
  | nil => intro v; rfl
  | cons op rest ih =>
    intro v
    have hiff : (op = CounterOp.fetchSub ∧ v = 1) ↔ (v ≠ 0 ∧ applyOp v op = 0) := by
      constructor
      · rintro ⟨h1, h2⟩
        subst h1
        subst h2
        exact ⟨by decide, by decide⟩
      · rintro ⟨hne, h0⟩
        cases op with
        | fetchSub =>
          refine ⟨rfl, ?_⟩
          simp only [applyOp] at h0
          omega
        | forceCAS e =>
          exfalso
          simp only [applyOp, casAttempt] at h0
          split at h0
          · omega
          · exact hne h0
    simp only [countFires, countZeroTransitions]
    rw [ih (applyOp v op), if_congr hiff rfl rfl]

/-- Claim C3: for every kernel, across any interleaved trace of atomic
operations on its arguments_not_ready counter (fetch_sub(1) from pops of the
worklist and guarded compare-exchange attempts of the error-acceleration
loop), a fetch_sub observes the prior value 1 at most once; when the counter
starts at least 1 and receives at least that many fetch_subs, the counter
reaches zero exactly once, and it transitions to zero exactly at the fetch_sub
observing prior value 1.  In the firing loop itself, a pop whose fetch_sub
observes a prior value other than 1 only decrements the counter and does
nothing else to the kernel, and the kernel's frame is built and its body run
exactly when the fetch_sub observes the prior value 1. -/
theorem claim_C3 :
    (∀ (v : Int) (ops : List CounterOp), countFires v ops ≤ 1) ∧
    (∀ (v : Int) (ops : List CounterOp), 1 ≤ v → v ≤ (numFetchSub ops : Int) →
      countFires v ops = 1 ∧ countZeroTransitions v ops = 1) ∧
    (∀ ctx s kernel_id, s.worklist.getLast? = some kernel_id →
      s.counters.getD kernel_id 0 ≠ 1 →
      popStep ctx s =
        emit { s with worklist := s.worklist.dropLast,
                      counters := s.counters.set kernel_id
                        (s.counters.getD kernel_id 0 - 1) }
          (Event.fetchSubEv kernel_id (s.counters.getD kernel_id 0))) ∧
    (∀ ctx s kernel_id, s.worklist.getLast? = some kernel_id →
      s.counters.getD kernel_id 0 = 1 →
      popStep ctx s = firedKernelBody ctx kernel_id
        (emit { s with worklist := s.worklist.dropLast,
                       counters := s.counters.set kernel_id (1 - 1) }
          (Event.fetchSubEv kernel_id 1))) := by
  refine ⟨countFires_le_one, ?_, ?_, ?_⟩
  · intro v ops h1 h2
    refine ⟨countFires_eq_one ops v h1 h2, ?_⟩
    rw [← countFires_eq_countZeroTransitions]
    exact countFires_eq_one ops v h1 h2
  · intro ctx s kernel_id hlast hne
    simp only [popStep, hlast]
    rw [if_neg hne]
  · intro ctx s kernel_id hlast h1
    simp only [popStep, hlast]
    rw [if_pos h1, h1]

theorem claim_C3_witness :
    (1 ≤ (2 : Int) ∧
      (2 : Int) ≤ (numFetchSub [CounterOp.fetchSub, CounterOp.fetchSub] : Int)) ∧
    countFires 2 [CounterOp.fetchSub, CounterOp.fetchSub] = 1 :=
  ⟨⟨by decide, by decide⟩,
   (claim_C3.2.1 2 [CounterOp.fetchSub, CounterOp.fetchSub] (by decide) (by decide)).1⟩

theorem forceToOne_idem (c : Int) : forceToOne (forceToOne c) = forceToOne c := by
  by_cases h : c > 1 <;> simp [forceToOne, h]

theorem skweir_getD (ids : List Nat) :
    ∀ (counters : List Int) (k : Nat), k < counters.length →
      (SetKernelsWithErrorInputReady counters ids).getD k 0 =
        if k ∈ ids then forceToOne (counters.getD k 0) else counters.getD k 0 := by
  induction ids with
  | nil => intro counters k hk; simp [SetKernelsWithErrorInputReady]
  | cons kid rest ih =>
    intro counters k hk
    rw [SetKernelsWithErrorInputReady]
    by_cases hk0 : k = kid
    · subst hk0
      rw [ih _ k (by simpa using hk), getD_set_self _ _ _ _ hk]
      by_cases hkr : k ∈ rest
      · simp [hkr, forceToOne_idem]
      · simp [hkr]
    · rw [ih _ k (by simpa using hk),
        getD_set_of_ne _ _ _ (fun hc => hk0 hc.symm)]
      simp [List.mem_cons, hk0]

/-- Claim C6: the error-acceleration routine sets the arguments_not_ready
counter of every listed kernel to exactly 1 when its current value exceeds 1
and leaves it unchanged otherwise; every individual compare-exchange attempt
of the loop (under any interleaving with concurrent decrements) changes the
counter only by writing exactly 1 from a current value greater than 1, so the
routine never reduces a counter below 1. -/
theorem claim_C6 :
    (∀ (counters : List Int) (ids : List Nat) (k : Nat), k < counters.length →
      (SetKernelsWithErrorInputReady counters ids).getD k 0 =
        if k ∈ ids then forceToOne (counters.getD k 0) else counters.getD k 0) ∧
    (∀ c : Int, c > 1 → forceToOne c = 1) ∧
    (∀ c : Int, c ≤ 1 → forceToOne c = c) ∧
    (∀ current expected : Int, casAttempt current expected ≠ current →
      current > 1 ∧ casAttempt current expected = 1) ∧
    (∀ current expected : Int, 1 ≤ current → 1 ≤ casAttempt current expected) := by
  refine ⟨fun counters ids k hk => skweir_getD ids counters k hk, ?_, ?_, ?_, ?_⟩
  · intro c hc; simp [forceToOne, hc]
  · intro c hc; simp only [forceToOne]; split <;> omega
  · intro current expected hne
    by_cases hc : expected > 1 ∧ current = expected
    · exact ⟨by omega, by simp [casAttempt, hc]⟩
    · exact absurd (by simp [casAttempt, hc]) hne
  · intro current expected h1
    by_cases hc : expected > 1 ∧ current = expected
    · simp [casAttempt, hc]
    · simpa [casAttempt, hc] using h1

theorem claim_C6_witness :
    0 < [(5 : Int), 0].length ∧
    (SetKernelsWithErrorInputReady [(5 : Int), 0] [0]).getD 0 0 =
      (if 0 ∈ [0] then forceToOne ([(5 : Int), 0].getD 0 0)
       else [(5 : Int), 0].getD 0 0) :=
  ⟨by decide, claim_C6.1 [(5 : Int), 0] [0] 0 (by decide)⟩

theorem claim_C2_witness :
    1 ≤ 2 ∧
    refcountOf (SetRegisterValue 2 emptyHeap 0 none).2.2.2 0
      = refcountOf emptyHeap 0 + (2 : Int) - 1 :=
  ⟨by decide, (claim_C2 2 emptyHeap 0 (by decide)).1.2⟩

theorem set_oob {α} (l : List α) (i : Nat) (a : α) (h : l.length ≤ i) : l.set i a = l := by
  induction l generalizing i with
  | nil => simp
  | cons x xs ih =>
    cases i with
    | zero => simp at h
    | succ n => simp [List.set, ih n (by simpa using h)]

theorem forced_trans {a b c : Int} (h1 : b = a ∨ (a > 1 ∧ b = 1))
    (h2 : c = b ∨ (b > 1 ∧ c = 1)) : c = a ∨ (a > 1 ∧ c = 1) := by
  rcases h1 with rfl | ⟨ha, rfl⟩
  · exact h2
  · rcases h2 with rfl | ⟨hb, rfl⟩
    · exact Or.inr ⟨ha, rfl⟩
    · exact Or.inr ⟨ha, rfl⟩

/-- The error-acceleration routine either leaves a counter unchanged or forces
it from a value above 1 down to exactly 1. -/
theorem skweir_forced (ids : List Nat) : ∀ (counters : List Int) (k : Nat),
    (SetKernelsWithErrorInputReady counters ids).getD k 0 = counters.getD k 0 ∨
      (counters.getD k 0 > 1 ∧
        (SetKernelsWithErrorInputReady counters ids).getD k 0 = 1) := by
  induction ids with
  | nil => intro counters k; exact Or.inl rfl
  | cons kid rest ih =>
    intro counters k
    rw [SetKernelsWithErrorInputReady]
    have hstep : (counters.set kid (forceToOne (counters.getD kid 0))).getD k 0
          = counters.getD k 0 ∨
        (counters.getD k 0 > 1 ∧
          (counters.set kid (forceToOne (counters.getD kid 0))).getD k 0 = 1) := by
      by_cases hk : kid = k
      · subst hk
        by_cases hr : kid < counters.length
        · rw [getD_set_self _ _ _ _ hr]
          by_cases hgt : counters.getD kid 0 > 1
          · exact Or.inr ⟨hgt, by unfold forceToOne; rw [if_pos hgt]⟩
          · exact Or.inl (by unfold forceToOne; rw [if_neg hgt])
        · rw [set_oob _ _ _ (by omega)]
          exact Or.inl rfl
      · rw [getD_set_of_ne _ _ _ hk]
        exact Or.inl rfl
    exact forced_trans hstep (ih _ k)

/-- ProcessUsedBys does not touch the register file or the heap, only appends
to the worklist, only forces counters toward 1 (never decrements them), and
only emits dispatch events. -/
theorem processUsedBys_effects (kernel : BEFKernel) (result_number result entry_offset : Nat)
    (s : ExecState) :
    (ProcessUsedBys kernel result_number result entry_offset s).2.regs = s.regs ∧
    (ProcessUsedBys kernel result_number result entry_offset s).2.heap = s.heap ∧
    (∃ app, (ProcessUsedBys kernel result_number result entry_offset s).2.worklist
        = s.worklist ++ app) ∧
    (∀ k, (ProcessUsedBys kernel result_number result entry_offset s).2.counters.getD k 0
        = s.counters.getD k 0 ∨
      (s.counters.getD k 0 > 1 ∧
        (ProcessUsedBys kernel result_number result entry_offset s).2.counters.getD k 0 = 1)) ∧
    (∃ evs, (ProcessUsedBys kernel result_number result entry_offset s).2.events
        = s.events ++ evs ∧ ∀ ev ∈ evs, isDispatchEv ev) := by
  by_cases h0 : kernel.num_used_bys result_number = 0
  · by_cases hav : isAvailableV s.heap result
    · refine ⟨?_, ?_, ⟨[], ?_⟩, fun k => Or.inl ?_, ⟨[], ?_, by simp⟩⟩ <;>
        simp [ProcessUsedBys, MaybeAddRefForResult, h0, hav]
    · refine ⟨?_, ?_, ⟨[], ?_⟩, fun k => Or.inl ?_,
        ⟨[Event.lifetimeExtEv result], ?_, ?_⟩⟩
      · simp [ProcessUsedBys, MaybeAddRefForResult, h0, hav, emit]
      · simp [ProcessUsedBys, MaybeAddRefForResult, h0, hav, emit]
      · simp [ProcessUsedBys, MaybeAddRefForResult, h0, hav, emit]
      · simp [ProcessUsedBys, MaybeAddRefForResult, h0, hav, emit]
      · simp [ProcessUsedBys, MaybeAddRefForResult, h0, hav, emit]
      · intro ev hev
        simp only [List.mem_singleton] at hev
        subst hev
        trivial
  · by_cases herr : (getCell s.heap result).isError
    · by_cases hav : (getCell s.heap result).available
      · refine ⟨?_, ?_,
          ⟨kernel.GetKernelEntries entry_offset (kernel.num_used_bys result_number), ?_⟩,
          fun k => ?_,
          ⟨[Event.forceReadyEv (kernel.GetKernelEntries entry_offset
              (kernel.num_used_bys result_number)),
            Event.appendEv (kernel.GetKernelEntries entry_offset
              (kernel.num_used_bys result_number))], ?_, ?_⟩⟩
        · simp [ProcessUsedBys, h0, herr, hav, emit]
        · simp [ProcessUsedBys, h0, herr, hav, emit]
        · simp [ProcessUsedBys, h0, herr, hav, emit]
        · simp only [ProcessUsedBys, h0, herr, hav, emit, if_neg h0, if_true]
          exact skweir_forced _ s.counters k
        · simp [ProcessUsedBys, h0, herr, hav, emit]
        · intro ev hev
          simp only [List.mem_cons, List.not_mem_nil, or_false] at hev
          rcases hev with rfl | rfl <;> trivial
      · refine ⟨?_, ?_, ⟨[], ?_⟩, fun k => ?_,
          ⟨[Event.forceReadyEv (kernel.GetKernelEntries entry_offset
              (kernel.num_used_bys result_number)),
            Event.addRefExecEv,
            Event.andThenArmEv (kernel.GetKernelEntries entry_offset
              (kernel.num_used_bys result_number))], ?_, ?_⟩⟩
        · simp [ProcessUsedBys, h0, herr, hav, emit]
        · simp [ProcessUsedBys, h0, herr, hav, emit]
        · simp [ProcessUsedBys, h0, herr, hav, emit]
        · simp only [ProcessUsedBys, h0, herr, hav, emit, if_neg h0, if_true]
          exact skweir_forced _ s.counters k
        · simp [ProcessUsedBys, h0, herr, hav, emit]
        · intro ev hev
          simp only [List.mem_cons, List.not_mem_nil, or_false] at hev
          rcases hev with rfl | rfl | rfl <;> trivial
    · by_cases hav : (getCell s.heap result).available
      · refine ⟨?_, ?_,
          ⟨kernel.GetKernelEntries entry_offset (kernel.num_used_bys result_number), ?_⟩,
          fun k => Or.inl ?_,
          ⟨[Event.appendEv (kernel.GetKernelEntries entry_offset
              (kernel.num_used_bys result_number))], ?_, ?_⟩⟩
        · simp [ProcessUsedBys, h0, herr, hav, emit]
        · simp [ProcessUsedBys, h0, herr, hav, emit]
        · simp [ProcessUsedBys, h0, herr, hav, emit]
        · simp [ProcessUsedBys, h0, herr, hav, emit]
        · simp [ProcessUsedBys, h0, herr, hav, emit]
        · intro ev hev
          simp only [List.mem_singleton] at hev
          subst hev
          trivial
      · refine ⟨?_, ?_, ⟨[], ?_⟩, fun k => Or.inl ?_,
          ⟨[Event.addRefExecEv,
            Event.andThenArmEv (kernel.GetKernelEntries entry_offset
              (kernel.num_used_bys result_number))], ?_, ?_⟩⟩
        · simp [ProcessUsedBys, h0, herr, hav, emit]
        · simp [ProcessUsedBys, h0, herr, hav, emit]
        · simp [ProcessUsedBys, h0, herr, hav, emit]
        · simp [ProcessUsedBys, h0, herr, hav, emit]
        · simp [ProcessUsedBys, h0, herr, hav, emit]
        · intro ev hev
          simp only [List.mem_cons, List.not_mem_nil, or_false] at hev
          rcases hev with rfl | rfl <;> trivial

/-- Claim C7: in used-by dispatch of a result that has users and is in the
Error state, the error-acceleration force-reduce on all kernels of its used-by
list completes before the list is appended to the worklist (available case)
and before the AndThen continuation that will decrement readiness counters is
armed (pending case); no readiness counter is decremented by the dispatch
itself, so a consumer is never enqueued while still above the short-circuit
state. -/
theorem claim_C7 (kernel : BEFKernel) (result_number result entry_offset : Nat)
    (s : ExecState) (hn : kernel.num_used_bys result_number ≠ 0)
    (herr : (getCell s.heap result).isError = true) :
    ((getCell s.heap result).available = true →
      (ProcessUsedBys kernel result_number result entry_offset s).2.events
        = s.events ++
          [Event.forceReadyEv (kernel.GetKernelEntries entry_offset
              (kernel.num_used_bys result_number)),
           Event.appendEv (kernel.GetKernelEntries entry_offset
              (kernel.num_used_bys result_number))] ∧
      (ProcessUsedBys kernel result_number result entry_offset s).2.counters
        = SetKernelsWithErrorInputReady s.counters
            (kernel.GetKernelEntries entry_offset (kernel.num_used_bys result_number)) ∧
      (ProcessUsedBys kernel result_number result entry_offset s).2.worklist
        = s.worklist ++ kernel.GetKernelEntries entry_offset
            (kernel.num_used_bys result_number) ∧
      (ProcessUsedBys kernel result_number result entry_offset s).1
        = entry_offset + kernel.num_used_bys result_number) ∧
    ((getCell s.heap result).available = false →
      (ProcessUsedBys kernel result_number result entry_offset s).2.events
        = s.events ++
          [Event.forceReadyEv (kernel.GetKernelEntries entry_offset
              (kernel.num_used_bys result_number)),
           Event.addRefExecEv,
           Event.andThenArmEv (kernel.GetKernelEntries entry_offset
              (kernel.num_used_bys result_number))] ∧
      (ProcessUsedBys kernel result_number result entry_offset s).2.counters
        = SetKernelsWithErrorInputReady s.counters
            (kernel.GetKernelEntries entry_offset (kernel.num_used_bys result_number)) ∧
      (ProcessUsedBys kernel result_number result entry_offset s).2.worklist
        = s.worklist) := by
  constructor
  · intro hav
    refine ⟨?_, ?_, ?_, ?_⟩ <;> simp [ProcessUsedBys, hn, herr, hav, emit]
  · intro hav
    refine ⟨?_, ?_, ?_⟩ <;> simp [ProcessUsedBys, hn, herr, hav, emit]

theorem claim_C7_witness :
    kernelC7.num_used_bys 0 ≠ 0 ∧
    (ProcessUsedBys kernelC7 0 0 0 errState).2.counters
      = SetKernelsWithErrorInputReady errState.counters
          (kernelC7.GetKernelEntries 0 (kernelC7.num_used_bys 0)) :=
  ⟨by decide, ((claim_C7 kernelC7 0 0 0 errState (by decide) rfl).1 rfl).2.1⟩

/-- Claim C8: for a just-produced result whose destination register has no
static users, the executor attaches a lifetime-extension continuation
(capturing a strong reference to the location handler) when the result is
still pending, drops exactly one reference on it (the producer's +1), and
performs no worklist append, no AndThen dispatch, and no register update for
it. -/
theorem claim_C8 (kernel : BEFKernel) (result_number reg_index result : Nat)
    (casObs : Option Nat) (entry_offset : Nat) (s : ExecState)
    (hu : (s.regs.getD reg_index default).user_count = 0)
    (hpend : isAvailableV s.heap result = false) :
    (publishOneResult kernel result_number reg_index result casObs entry_offset s).2.events
      = s.events ++ [Event.lifetimeExtEv result, Event.dropRefEv result] ∧
    (publishOneResult kernel result_number reg_index result casObs entry_offset s).2.locRefs
      = s.locRefs + 1 ∧
    refcountOf (publishOneResult kernel result_number reg_index result casObs
        entry_offset s).2.heap result
      = refcountOf s.heap result - 1 ∧
    (publishOneResult kernel result_number reg_index result casObs entry_offset s).2.worklist
      = s.worklist ∧
    (publishOneResult kernel result_number reg_index result casObs entry_offset s).2.regs
      = s.regs ∧
    (publishOneResult kernel result_number reg_index result casObs entry_offset s).2.execRefs
      = s.execRefs ∧
    (publishOneResult kernel result_number reg_index result casObs entry_offset s).1
      = entry_offset := by
  have hu2 := hu
  simp only [List.getD_eq_getElem?_getD] at hu2
  refine ⟨?_, ?_, ?_, ?_, ?_, ?_, ?_⟩ <;>
    simp [publishOneResult, hu2, MaybeAddRefForResult, hpend, emit, dropRef, addRef,
      updCell, getCell, refcountOf]

theorem claim_C8_witness :
    (pendState.regs.getD 0 default).user_count = 0 ∧
    isAvailableV pendState.heap 0 = false ∧
    (publishOneResult default 0 0 0 none 4 pendState).2.locRefs = pendState.locRefs + 1 := by
  refine ⟨by decide, rfl, ?_⟩
  exact (claim_C8 default 0 0 0 none 4 pendState (by decide) rfl).2.1

/-- In the user_count ≠ 0 branch of result publication, every setReg event in
the output log is either an old event or the single install on this register
with this register's user count. -/
theorem publishOneResult_setReg_mem (kernel : BEFKernel)
    (result_number reg_index result : Nat) (casObs : Option Nat) (entry_offset : Nat)
    (s : ExecState) (hu : ¬ (s.regs.getD reg_index default).user_count = 0)
    (i u : Nat)
    (hmem : Event.setRegEv i u ∈
      (publishOneResult kernel result_number reg_index result casObs
        entry_offset s).2.events) :
    Event.setRegEv i u ∈ s.events ∨
      (i = reg_index ∧ u = (s.regs.getD reg_index default).user_count) := by
  obtain ⟨evs, hevs, hdisp⟩ :=
    (processUsedBys_effects kernel result_number
      (SetRegisterValue (s.regs.getD reg_index default).user_count s.heap result casObs).1
      entry_offset
      (emit { s with
          heap := (SetRegisterValue (s.regs.getD reg_index default).user_count s.heap
              result casObs).2.2.2,
          regs := s.regs.set reg_index
            { s.regs.getD reg_index default with
              value := (SetRegisterValue (s.regs.getD reg_index default).user_count s.heap
                  result casObs).2.2.1 } }
        (Event.setRegEv reg_index (s.regs.getD reg_index default).user_count))).2.2.2.2
  simp only [publishOneResult, if_neg hu] at hmem
  by_cases hset : (SetRegisterValue (s.regs.getD reg_index default).user_count s.heap result
      casObs).2.1 = true
  · rw [if_pos hset] at hmem
    simp only [emit] at hmem hevs
    rw [hevs] at hmem
    simp at hmem
    rcases hmem with hmem | hmem | hmem
    · exact Or.inl hmem
    · exact Or.inr (by simpa using hmem)
    · exact (hdisp _ hmem).elim
  · rw [if_neg hset] at hmem
    simp only [emit] at hmem hevs
    rw [hevs] at hmem
    simp at hmem
    rcases hmem with hmem | hmem | hmem
    · exact Or.inl hmem
    · exact Or.inr (by simpa using hmem)
    · exact (hdisp _ hmem).elim

/-- Claim C10: for a fired kernel result whose destination register has
user_count zero, the register file is left unchanged (a null register stays
null), the produced value is never installed through SetRegisterValue, and
the producer's +1 reference on it is dropped immediately; moreover every
SetRegisterValue invocation performed by the result-publication step is on a
register with user_count greater than zero, so the precondition assertion of
SetRegisterValue holds at its call site. -/
theorem claim_C10 (kernel : BEFKernel) (result_number reg_index result : Nat)
    (casObs : Option Nat) (entry_offset : Nat) (s : ExecState) :
    ((s.regs.getD reg_index default).user_count = 0 →
      (publishOneResult kernel result_number reg_index result casObs entry_offset s).2.regs
        = s.regs ∧
      refcountOf (publishOneResult kernel result_number reg_index result casObs
          entry_offset s).2.heap result
        = refcountOf s.heap result - 1 ∧
      (publishOneResult kernel result_number reg_index result casObs entry_offset s).1
        = entry_offset ∧
      (∀ i u, Event.setRegEv i u ∈ (publishOneResult kernel result_number reg_index result
          casObs entry_offset s).2.events → Event.setRegEv i u ∈ s.events)) ∧
    (∀ i u, Event.setRegEv i u ∈ (publishOneResult kernel result_number reg_index result
        casObs entry_offset s).2.events →
      Event.setRegEv i u ∈ s.events ∨
        (i = reg_index ∧ u = (s.regs.getD reg_index default).user_count ∧ 0 < u)) := by
  have hzero : (s.regs.getD reg_index default).user_count = 0 →
      (publishOneResult kernel result_number reg_index result casObs entry_offset s).2.regs
        = s.regs ∧
      refcountOf (publishOneResult kernel result_number reg_index result casObs
          entry_offset s).2.heap result
        = refcountOf s.heap result - 1 ∧
      (publishOneResult kernel result_number reg_index result casObs entry_offset s).1
        = entry_offset ∧
      (∀ i u, Event.setRegEv i u ∈ (publishOneResult kernel result_number reg_index result
          casObs entry_offset s).2.events → Event.setRegEv i u ∈ s.events) := by
    intro hu
    have hu2 := hu
    simp only [List.getD_eq_getElem?_getD] at hu2
    by_cases hav : isAvailableV s.heap result
    · refine ⟨?_, ?_, ?_, ?_⟩ <;>
        simp [publishOneResult, hu2, MaybeAddRefForResult, hav, emit, dropRef,
          updCell, getCell, refcountOf]
    · refine ⟨?_, ?_, ?_, ?_⟩ <;>
        simp [publishOneResult, hu2, MaybeAddRefForResult, hav, emit, dropRef,
          updCell, getCell, refcountOf]
  refine ⟨hzero, ?_⟩
  intro i u hmem
  by_cases hu : (s.regs.getD reg_index default).user_count = 0
  · exact Or.inl ((hzero hu).2.2.2 i u hmem)
  · rcases publishOneResult_setReg_mem kernel result_number reg_index result casObs
        entry_offset s hu i u hmem with h | ⟨hi, hu2⟩
    · exact Or.inl h
    · exact Or.inr ⟨hi, hu2, by omega⟩

theorem claim_C10_witness :
    (pendState.regs.getD 0 default).user_count = 0 ∧
    (publishOneResult default 0 0 0 none 9 pendState).2.regs = pendState.regs :=
  ⟨by decide, ((claim_C10 default 0 0 0 none 9 pendState).1 (by decide)).1⟩

theorem addRef_refcount (h : Heap) (v n x : Nat) :
    refcountOf (addRef h v n) x = refcountOf h x + (if x = v then (n : Int) else 0) := by
  by_cases hx : x = v <;> simp [addRef, updCell, getCell, refcountOf, hx]

theorem dropRef_refcount (h : Heap) (v n x : Nat) :
    refcountOf (dropRef h v n) x = refcountOf h x - (if x = v then (n : Int) else 0) := by
  by_cases hx : x = v <;> simp [dropRef, updCell, getCell, refcountOf, hx]

theorem formRefLoop_refcount (e : Nat) :
    ∀ (n : Nat) (h : Heap) (x : Nat),
      refcountOf (formRefLoop e n h) x
        = refcountOf h x + (if x = e then (n : Int) else 0) := by
  intro n
  induction n with
  | zero => intro h x; simp [formRefLoop]
  | succ m ih =>
    intro h x
    rw [formRefLoop, ih, addRef_refcount]
    by_cases hx : x = e <;> simp [hx] <;> omega

theorem dropArgsLoop_events : ∀ (frame : List Nat) (s : ExecState),
    (dropArgsLoop frame s).events = s.events ++ frame.map Event.dropRefEv := by
  intro frame
  induction frame with
  | nil => intro s; simp [dropArgsLoop]
  | cons a rest ih =>
    intro s
    rw [dropArgsLoop, ih]
    simp [emit]

theorem dropArgsLoop_refcount : ∀ (frame : List Nat) (s : ExecState) (x : Nat),
    refcountOf (dropArgsLoop frame s).heap x
      = refcountOf s.heap x - (frame.count x : Int) := by
  intro frame
  induction frame with
  | nil => intro s x; simp [dropArgsLoop]
  | cons a rest ih =>
    intro s x
    rw [dropArgsLoop, ih]
    show refcountOf (dropRef s.heap a 1) x - (rest.count x : Int) = _
    rw [dropRef_refcount]
    by_cases hx : a = x <;> simp [List.count_cons, hx] <;> omega

/-- Claim C4: a fired kernel that is strict (non-strict bit clear) and has a
non-null any_error_argument does not invoke the kernel implementation;
instead every result slot is set to a new reference to any_error_argument
(one AddRef per slot) and every bound frame argument still receives exactly
one DropRef (witnessed both by the event log, which consists solely of the
per-argument DropRef events, and by the refcounts).  any_error_argument can
only be non-null because an Error-state value was bound during argument
setup or the cancel sentinel seeded it: if binding ends with a null
any_error_argument then it started null (second conjunct), and with no
arguments it is exactly the cancel sentinel (third conjunct). -/
theorem claim_C4 :
    (∀ (kernel_id e num_results : Nat) (kres frame : List Nat) (s : ExecState),
      (fireOrPropagate kernel_id false (some e) num_results kres frame s).1 = false ∧
      (fireOrPropagate kernel_id false (some e) num_results kres frame s).2.1
        = List.replicate num_results e ∧
      (fireOrPropagate kernel_id false (some e) num_results kres frame s).2.2.events
        = s.events ++ frame.map Event.dropRefEv ∧
      (∀ x, refcountOf
          (fireOrPropagate kernel_id false (some e) num_results kres frame s).2.2.heap x
        = refcountOf s.heap x + (if x = e then (num_results : Int) else 0)
          - (frame.count x : Int))) ∧
    (∀ (casObs : Nat → Option Nat) (args : List (Nat × Nat)) (frame : List Nat)
        (any_error : Option Nat) (s : ExecState),
      (bindArgsLoop casObs args frame any_error s).2.1 = none → any_error = none) ∧
    (∀ (casObs : Nat → Option Nat) (cancel : Option Nat) (s : ExecState),
      bindArgs [] casObs cancel s = ([], cancel, s)) := by
  refine ⟨?_, ?_, ?_⟩
  · intro kernel_id e num_results kres frame s
    refine ⟨rfl, rfl, ?_, ?_⟩
    · show (dropArgsLoop frame
          { s with heap := formRefLoop e num_results s.heap }).events = _
      rw [dropArgsLoop_events]
    · intro x
      show refcountOf (dropArgsLoop frame
          { s with heap := formRefLoop e num_results s.heap }).heap x = _
      rw [dropArgsLoop_refcount]
      show refcountOf (formRefLoop e num_results s.heap) x - (frame.count x : Int) = _
      rw [formRefLoop_refcount]
  · intro casObs args
    induction args with
    | nil => intro frame any_error s h; exact h
    | cons p rest ih =>
      obtain ⟨i, r⟩ := p
      intro frame any_error s h
      simp only [bindArgsLoop] at h
      have h2 := ih _ _ _ h
      split at h2
      · exact absurd h2 (by simp)
      · exact h2
  · intro casObs cancel s
    rfl

theorem claim_C4_witness :
    (bindArgsLoop (fun _ => none) [(0, 0)] [] none pendState).2.1 = none ∧
    (none : Option Nat) = none :=
  ⟨rfl, claim_C4.2.1 (fun _ => none) [(0, 0)] [] none pendState rfl⟩

theorem seedWorklist_eq_reverse (e : Nat) : seedWorklist e = (List.range e).reverse := by
  apply List.ext_getElem
  · simp [seedWorklist]
  · intro i h1 h2
    simp only [seedWorklist, List.getElem_map, List.getElem_range, List.getElem_reverse]
    simp only [List.length_range]
    omega

/-- The pseudo-kernel loop is a sequence of used-by dispatches: it leaves the
register file and the heap unchanged, only appends to the worklist, only
forces counters toward 1, and only emits dispatch events. -/
theorem pseudoLoop_effects (kernel : BEFKernel) (results : List Nat) :
    ∀ (rns : List Nat) (off : Nat) (s : ExecState),
      (pseudoKernelLoop kernel results rns off s).regs = s.regs ∧
      (pseudoKernelLoop kernel results rns off s).heap = s.heap ∧
      (∃ app, (pseudoKernelLoop kernel results rns off s).worklist
          = s.worklist ++ app) ∧
      (∀ k, (pseudoKernelLoop kernel results rns off s).counters.getD k 0
          = s.counters.getD k 0 ∨
        (s.counters.getD k 0 > 1 ∧
          (pseudoKernelLoop kernel results rns off s).counters.getD k 0 = 1)) ∧
      (∃ evs, (pseudoKernelLoop kernel results rns off s).events
          = s.events ++ evs ∧ ∀ ev ∈ evs, isDispatchEv ev) := by
  intro rns
  induction rns with
  | nil =>
    intro off s
    exact ⟨rfl, rfl, ⟨[], by simp [pseudoKernelLoop]⟩, fun k => Or.inl rfl,
      ⟨[], by simp [pseudoKernelLoop], by simp⟩⟩
  | cons rn rest ih =>
    intro off s
    by_cases h0 : (s.regs.getD (results.getD rn 0) default).user_count = 0
    · simp only [pseudoKernelLoop, if_pos h0]
      exact ih off s
    · cases hreg : GetRegisterValue (s.regs.getD (results.getD rn 0) default) with
      | none =>
        simp only [pseudoKernelLoop, if_neg h0, hreg]
        exact ih off s
      | some result =>
        simp only [pseudoKernelLoop, if_neg h0, hreg]
        obtain ⟨hregs1, hheap1, ⟨app1, hwl1⟩, hcnt1, ⟨evs1, hev1, hd1⟩⟩ :=
          processUsedBys_effects kernel rn result off s
        obtain ⟨hregs2, hheap2, ⟨app2, hwl2⟩, hcnt2, ⟨evs2, hev2, hd2⟩⟩ :=
          ih (ProcessUsedBys kernel rn result off s).1
            (ProcessUsedBys kernel rn result off s).2
        refine ⟨hregs2.trans hregs1, hheap2.trans hheap1,
          ⟨app1 ++ app2, ?_⟩, fun k => forced_trans (hcnt1 k) (hcnt2 k),
          ⟨evs1 ++ evs2, ?_, ?_⟩⟩
        · rw [hwl2, hwl1, List.append_assoc]
        · rw [hev2, hev1, List.append_assoc]
        · intro ev hev
          rcases List.mem_append.mp hev with h | h
          · exact hd1 ev h
          · exact hd2 ev h

/-- Claim C9: when the argument pseudo-kernel is present, the worklist is
seeded with every kernel id in reverse order (it equals the reverse of
[0, ..., e-1], so id 0 sits at the back), and ProcessArgumentsPseudoKernel
pops the back without performing any fetch_sub: it never decrements a
counter (counters are at most forced toward 1 by error acceleration), never
touches the register file or the heap, only appends used-by consumers after
the popped worklist, and emits only used-by dispatch events (no fetch_sub, no
kernel invocation, no register install, no DropRef). -/
theorem claim_C9 :
    (∀ e : Nat, seedWorklist e = (List.range e).reverse) ∧
    (∀ e : Nat, 1 ≤ e → (seedWorklist e).getLast? = some 0) ∧
    (∀ (ctx : ExecutorCtx) (s : ExecState),
      (ProcessArgumentsPseudoKernel ctx s).regs = s.regs ∧
      (ProcessArgumentsPseudoKernel ctx s).heap = s.heap ∧
      (∃ app, (ProcessArgumentsPseudoKernel ctx s).worklist
          = s.worklist.dropLast ++ app) ∧
      (∀ k, (ProcessArgumentsPseudoKernel ctx s).counters.getD k 0
          = s.counters.getD k 0 ∨
        (s.counters.getD k 0 > 1 ∧
          (ProcessArgumentsPseudoKernel ctx s).counters.getD k 0 = 1)) ∧
      (∀ ev ∈ (ProcessArgumentsPseudoKernel ctx s).events,
        ev ∈ s.events ∨ isDispatchEv ev)) := by
  refine ⟨seedWorklist_eq_reverse, ?_, ?_⟩
  · intro e he
    rw [seedWorklist_eq_reverse, List.getLast?_reverse]
    cases e with
    | zero => omega
    | succ m => simp [List.range_succ_eq_map]
  · intro ctx s
    obtain ⟨hregs, hheap, ⟨app, hwl⟩, hcnt, ⟨evs, hev, hd⟩⟩ :=
      pseudoLoop_effects (ctx.kernelRecords.getD 0 default)
        ((ctx.kernelRecords.getD 0 default).GetKernelEntries 0
          (ctx.kernelRecords.getD 0 default).num_results)
        (List.range ((ctx.kernelRecords.getD 0 default).GetKernelEntries 0
          (ctx.kernelRecords.getD 0 default).num_results).length)
        ((ctx.kernelRecords.getD 0 default).GetKernelEntries 0
          (ctx.kernelRecords.getD 0 default).num_results).length
        { s with worklist := s.worklist.dropLast }
    refine ⟨hregs, hheap, ⟨app, hwl⟩, hcnt, ?_⟩
    intro ev hmem
    rw [ProcessArgumentsPseudoKernel] at hmem
    rw [hev] at hmem
    rcases List.mem_append.mp hmem with h | h
    · exact Or.inl h
    · exact Or.inr (hd ev h)

theorem claim_C9_witness :
    1 ≤ 1 ∧ (seedWorklist 1).getLast? = some 0 :=
  ⟨by decide, claim_C9.2.1 1 (by decide)⟩

/-- GetOrCreateRegisterValue always leaves the register holding exactly the
value it returns. -/
theorem getOrCreate_value (reg : RegisterInfo) (h : Heap) (o : Option Nat) :
    ((GetOrCreateRegisterValue reg h o).2.1).value
      = some (GetOrCreateRegisterValue reg h o).1 := by
  cases hval : reg.value with
  | some v => simp [GetOrCreateRegisterValue, hval]
  | none =>
    cases o with
    | some w => simp [GetOrCreateRegisterValue, hval]
    | none => simp [GetOrCreateRegisterValue, hval]

/-- A register that already holds a value keeps that value through the
result-population loop. -/
theorem populateResults_value_stable (obs : Nat → Option Nat) :
    ∀ (pairs : List (Nat × Nat)) (out : List (Option Nat)) (s : ExecState) (r x : Nat),
      (s.regs.getD r default).value = some x →
      ((populateResults obs pairs out s).2.regs.getD r default).value = some x := by
  intro pairs
  induction pairs with
  | nil => intro out s r x hx; exact hx
  | cons p rest ih =>
    obtain ⟨i, rr⟩ := p
    intro out s r x hx
    simp only [populateResults]
    by_cases hrr : rr = r
    · subst hrr
      apply ih
      by_cases hr : rr < s.regs.length
      · have hg : ∀ (reg : RegisterInfo), reg.value = some x →
            ((GetOrCreateRegisterValue reg s.heap (obs i)).2.1).value = some x := by
          intro reg hreg
          simp [GetOrCreateRegisterValue, hreg]
        rw [getD_set_self _ _ _ _ hr]
        exact hg _ hx
      · rw [set_oob _ _ _ (by omega)]
        exact hx
    · apply ih
      rw [getD_set_of_ne _ _ _ hrr]
      exact hx

/-- The result-population loop does not touch result slots below its starting
position. -/
theorem populateResults_out_lt (obs : Nat → Option Nat) :
    ∀ (rs : List Nat) (k : Nat) (out : List (Option Nat)) (s : ExecState) (j : Nat),
      j < k →
      (populateResults obs (List.enumFrom k rs) out s).1.getD j none = out.getD j none := by
  intro rs
  induction rs with
  | nil => intro k out s j hj; rfl
  | cons r rest ih =>
    intro k out s j hj
    show (populateResults obs ((k, r) :: List.enumFrom (k + 1) rest) out s).1.getD j none = _
    simp only [populateResults]
    rw [ih (k + 1) _ _ j (by omega)]
    exact getD_set_of_ne _ _ _ (by omega)

/-- Every slot covered by the result-population loop ends up non-empty. -/
theorem populateResults_nonempty (obs : Nat → Option Nat) :
    ∀ (rs : List Nat) (k : Nat) (out : List (Option Nat)) (s : ExecState),
      k + rs.length ≤ out.length →
      ∀ j, k ≤ j → j < k + rs.length →
        ∃ v, (populateResults obs (List.enumFrom k rs) out s).1.getD j none = some v := by
  intro rs
  induction rs with
  | nil =>
    intro k out s hlen j h1 h2
    exact absurd h2 (by simp only [List.length_nil]; omega)
  | cons r rest ih =>
    intro k out s hlen j h1 h2
    simp only [List.length_cons] at hlen h2
    show ∃ v, (populateResults obs ((k, r) :: List.enumFrom (k + 1) rest) out s).1.getD
        j none = some v
    simp only [populateResults]
    by_cases hj : j = k
    · subst hj
      refine ⟨(GetOrCreateRegisterValue (s.regs.getD r default) s.heap (obs j)).1, ?_⟩
      rw [populateResults_out_lt obs rest (j + 1) _ _ j (by omega)]
      exact getD_set_self _ _ _ _ (by omega)
    · refine ih (k + 1)
        (out.set k (some (GetOrCreateRegisterValue (s.regs.getD r default) s.heap
          (obs k)).1)) _ ?_ j (by omega) (by omega)
      simp only [List.length_set]
      omega

/-- Every slot covered by the result-population loop ends up holding exactly
the value its result register holds when the loop finishes. -/
theorem populateResults_link (obs : Nat → Option Nat) :
    ∀ (rs : List Nat) (k : Nat) (out : List (Option Nat)) (s : ExecState),
      k + rs.length ≤ out.length →
      (∀ r ∈ rs, r < s.regs.length) →
      ∀ j, k ≤ j → j < k + rs.length →
        ∃ v, (populateResults obs (List.enumFrom k rs) out s).1.getD j none = some v ∧
          ((populateResults obs (List.enumFrom k rs) out s).2.regs.getD
              (rs.getD (j - k) 0) default).value = some v := by
  intro rs
  induction rs with
  | nil =>
    intro k out s hlen hrange j h1 h2
    exact absurd h2 (by simp only [List.length_nil]; omega)
  | cons r rest ih =>
    intro k out s hlen hrange j h1 h2
    simp only [List.length_cons] at hlen h2
    show ∃ v, (populateResults obs ((k, r) :: List.enumFrom (k + 1) rest) out s).1.getD
        j none = some v ∧ _
    simp only [populateResults]
    by_cases hj : j = k
    · subst hj
      refine ⟨(GetOrCreateRegisterValue (s.regs.getD r default) s.heap (obs j)).1, ?_, ?_⟩
      · rw [populateResults_out_lt obs rest (j + 1) _ _ j (by omega)]
        exact getD_set_self _ _ _ _ (by omega)
      · have hidx : (r :: rest).getD (j - j) 0 = r := by simp
        rw [hidx]
        apply populateResults_value_stable
        rw [getD_set_self _ _ _ _ (hrange r (by simp))]
        exact getOrCreate_value _ _ _
    · have hstep : ∀ r2 ∈ rest, r2 <
          (s.regs.set r (GetOrCreateRegisterValue (s.regs.getD r default) s.heap
            (obs k)).2.1).length := by
        intro r2 hr2
        simpa [List.length_set] using hrange r2 (by simp [hr2])
      obtain ⟨v, hv1, hv2⟩ := ih (k + 1)
        (out.set k (some (GetOrCreateRegisterValue (s.regs.getD r default) s.heap
          (obs k)).1))
        { s with
          heap := (GetOrCreateRegisterValue (s.regs.getD r default) s.heap (obs k)).2.2,
          regs := s.regs.set r (GetOrCreateRegisterValue (s.regs.getD r default) s.heap
            (obs k)).2.1 }
        (by simp only [List.length_set]; omega) hstep j (by omega) (by omega)
      refine ⟨v, hv1, ?_⟩
      have hidx : (r :: rest).getD (j - k) 0 = rest.getD (j - (k + 1)) 0 := by
        have h3 : j - k = (j - (k + 1)) + 1 := by omega
        rw [h3]
        rfl
      rw [hidx]
      exact hv2

/-- Claim C5 as stated is false on the code: when ReadFunction hands back an
empty kernel stream, Execute returns early and the caller's result slots stay
empty. -/
theorem claim_C5_counterexample :
    (Execute ctx0 fnOutEmpty [] [none] (fun _ => none) emptyHeap 0).1.getD 0 none
      = none := rfl

/-- Claim C5 (amended): for every call Execute(ctx, function, arguments,
results) with every results[i] initially empty, provided the function's
kernel stream loads non-empty (on an empty stream Execute returns early and
leaves results untouched), when Execute returns every results[i] is
non-empty; moreover the result-population loop stores in results[i] exactly
the AsyncValue its result register ends up holding (the register's value if
already set, otherwise the freshly installed IndirectAsyncValue placeholder),
whenever the result register indices are within the register file. -/
theorem claim_C5 (ctx : ExecutorCtx) (fnOut : ReadFunctionOutput) (arguments : List Nat)
    (results : List (Option Nat)) (popCasObs : Nat → Option Nat) (h : Heap) (fuel : Nat)
    (hk : fnOut.kernels ≠ []) (hlen : fnOut.result_regs.length = results.length) :
    (∀ j, j < results.length →
      ∃ v, (Execute ctx fnOut arguments results popCasObs h fuel).1.getD j none
        = some v) ∧
    (∀ (s : ExecState), (∀ r ∈ fnOut.result_regs, r < s.regs.length) →
      ∀ j, j < results.length →
        ∃ v, (populateResults popCasObs fnOut.result_regs.enum results s).1.getD j none
            = some v ∧
          ((populateResults popCasObs fnOut.result_regs.enum results s).2.regs.getD
              (fnOut.result_regs.getD j 0) default).value = some v) := by
  constructor
  · intro j hj
    simp only [Execute, if_neg hk]
    exact populateResults_nonempty popCasObs fnOut.result_regs 0 results _
      (by omega) j (by omega) (by omega)
  · intro s hrange j hj
    have hres := populateResults_link popCasObs fnOut.result_regs 0 results s
      (by omega) hrange j (by omega) (by omega)
    simpa using hres

theorem claim_C5_witness :
    fnOutW.kernels ≠ [] ∧
    ∃ v, (Execute ctx0 fnOutW [] [none] (fun _ => none) emptyHeap 1).1.getD 0 none
      = some v :=
  ⟨by decide,
   (claim_C5 ctx0 fnOutW [] [none] (fun _ => none) emptyHeap 1 (by decide)
     (by decide)).1 0 (by decide)⟩

end BEF
